import Mathlib

/-!
Shallow embedding of the client-side music-history persistence core:

* `lib/db.ts` — IndexedDB layer (`initDB`, `addTrack`, `getAllTracks`,
  `deleteTrack`) over the `tracks` object store with key path `id`;
* the App component in its flat-storage form (`App.tsx`) — base64 helpers,
  the `musicHistory` localStorage persistence effect with the 20/10/5
  quota back-off ladder, and `deleteFromHistory`;
* the App component in its IndexedDB form — the one-time legacy
  localStorage → IndexedDB migration inside `loadHistory`, and the object
  URL (playback handle) lifecycle of `handleEditMusic` / `deleteFromHistory`.

Bytes are modelled as `Nat` values below 256, blobs as `List Nat`, object
URLs as `Nat` tokens handed out by a counter, and the storage engines
(IndexedDB object store, localStorage) as explicit values threaded through
the functions.  JS numbers that are only carried, never computed with
(durations, effect settings), are modelled as `Int`.
-/

namespace MusicGen

/-- Characters removed by the platform's forgiving-base64 decode (`atob`):
ASCII whitespace TAB, LF, FF, CR, SPACE. -/
def isB64Whitespace (c : Char) : Bool :=
  c.toNat = 9 || c.toNat = 10 || c.toNat = 12 || c.toNat = 13 || c.toNat = 32

/-- Standard base64 alphabet: the character for a six-bit group. -/
def sextetChar (n : Nat) : Char :=
  if n < 26 then Char.ofNat (65 + n)
  else if n < 52 then Char.ofNat (97 + (n - 26))
  else if n < 62 then Char.ofNat (48 + (n - 52))
  else if n = 62 then Char.ofNat 43
  else Char.ofNat 47

/-- Inverse alphabet lookup; `none` outside the alphabet, which is how
`atob` rejects a malformed character (it throws `InvalidCharacterError`). -/
def charSextet (c : Char) : Option Nat :=
  if 65 ≤ c.toNat ∧ c.toNat ≤ 90 then some (c.toNat - 65)
  else if 97 ≤ c.toNat ∧ c.toNat ≤ 122 then some (26 + (c.toNat - 97))
  else if 48 ≤ c.toNat ∧ c.toNat ≤ 57 then some (52 + (c.toNat - 48))
  else if c.toNat = 43 then some 62
  else if c.toNat = 47 then some 63
  else none

/-- Base64 of a byte list, without the trailing `=` padding: three bytes
become four characters; one or two leftover bytes become two or three. -/
def b64EncodeCore : List Nat → List Char
  | a :: b :: c :: rest =>
      sextetChar (a / 4) :: sextetChar (a % 4 * 16 + b / 16) ::
      sextetChar (b % 16 * 4 + c / 64) :: sextetChar (c % 64) :: b64EncodeCore rest
  | [a, b] => [sextetChar (a / 4), sextetChar (a % 4 * 16 + b / 16), sextetChar (b % 16 * 4)]
  | [a] => [sextetChar (a / 4), sextetChar (a % 4 * 16)]
  | [] => []

/-- The `=` padding appended by the platform encoder. -/
def b64Pad (n : Nat) : List Char :=
  if n % 3 = 1 then [Char.ofNat 61, Char.ofNat 61]
  else if n % 3 = 2 then [Char.ofNat 61]
  else []

/-- Base64 of a byte list as produced by `FileReader.readAsDataURL` after
the data-URL prefix is split off in `blobToBase64`. -/
def b64Encode (bytes : List Nat) : List Char :=
  b64EncodeCore bytes ++ b64Pad bytes.length

/-- Decode a padding-stripped base64 character stream four characters at a
time; two or three leftover characters yield one or two bytes with the
leftover bits discarded, one leftover character is an error.  This is the
main loop of forgiving-base64 (`atob`). -/
def b64DecodeChunks : List Char → Option (List Nat)
  | [] => some []
  | c1 :: c2 :: c3 :: c4 :: rest => do
      let s1 ← charSextet c1
      let s2 ← charSextet c2
      let s3 ← charSextet c3
      let s4 ← charSextet c4
      let tail ← b64DecodeChunks rest
      some ((s1 * 4 + s2 / 16) :: (s2 % 16 * 16 + s3 / 4) :: (s3 % 4 * 64 + s4) :: tail)
  | [c1, c2] => do
      let s1 ← charSextet c1
      let s2 ← charSextet c2
      some [s1 * 4 + s2 / 16]
  | [c1, c2, c3] => do
      let s1 ← charSextet c1
      let s2 ← charSextet c2
      let s3 ← charSextet c3
      some [s1 * 4 + s2 / 16, s2 % 16 * 16 + s3 / 4]
  | _ => none

/-- Removal of up to two trailing `=` characters when the length is a
multiple of four, as forgiving-base64 prescribes. -/
def stripB64Padding (cs : List Char) : List Char :=
  if cs.length % 4 = 0 then
    match cs.reverse with
    | c :: d :: rest =>
        if c = Char.ofNat 61 then
          if d = Char.ofNat 61 then rest.reverse else (d :: rest).reverse
        else cs
    | _ => cs
  else cs

/-- The platform `atob`: strip ASCII whitespace, strip padding, decode;
`none` models the thrown `InvalidCharacterError`. -/
def atobBytes (s : String) : Option (List Nat) :=
  b64DecodeChunks (stripB64Padding (s.toList.filter (fun c => !isB64Whitespace c)))

/-- App.tsx `blobToBase64`: the platform encodes the blob's bytes as a
base64 data URL and the code splits off the payload after the comma. -/
def blobToBase64 (bytes : List Nat) : String :=
  String.mk (b64Encode bytes)

/-- App.tsx `base64ToBlob`: `atob`, then one byte per code unit via
`charCodeAt`, collected into a new `Blob` tagged with `mimeType` (the tag
does not affect the bytes). `none` models the throw on malformed input. -/
def base64ToBlob (base64 : String) (_mimeType : String) : Option (List Nat) :=
  atobBytes base64

theorem charSextet_sextetChar : ∀ n, n < 64 → charSextet (sextetChar n) = some n := by
  decide

theorem sextetChar_ne_eq : ∀ n, n < 64 → sextetChar n ≠ Char.ofNat 61 := by
  decide

theorem sextetChar_not_ws : ∀ n, n < 64 → isB64Whitespace (sextetChar n) = false := by
  decide

theorem b64EncodeCore_chars : ∀ (bytes : List Nat), (∀ b ∈ bytes, b < 256) →
    ∀ ch ∈ b64EncodeCore bytes, ∃ k, k < 64 ∧ ch = sextetChar k
  | [], _ => by
      intro ch h
      simp [b64EncodeCore] at h
  | [a], hb => by
      intro ch h
      have ha : a < 256 := hb a (by simp)
      simp only [b64EncodeCore, List.mem_cons, List.not_mem_nil, or_false] at h
      rcases h with h | h
      · exact ⟨a / 4, by omega, h⟩
      · exact ⟨a % 4 * 16, by omega, h⟩
  | [a, b], hb => by
      intro ch h
      have ha : a < 256 := hb a (by simp)
      have hb2 : b < 256 := hb b (by simp)
      simp only [b64EncodeCore, List.mem_cons, List.not_mem_nil, or_false] at h
      rcases h with h | h | h
      · exact ⟨a / 4, by omega, h⟩
      · exact ⟨a % 4 * 16 + b / 16, by omega, h⟩
      · exact ⟨b % 16 * 4, by omega, h⟩
  | a :: b :: c :: rest, hb => by
      intro ch h
      have ha : a < 256 := hb a (by simp)
      have hb2 : b < 256 := hb b (by simp)
      have hc : c < 256 := hb c (by simp)
      rw [b64EncodeCore] at h
      simp only [List.mem_cons] at h
      rcases h with h | h | h | h | h
      · exact ⟨a / 4, by omega, h⟩
      · exact ⟨a % 4 * 16 + b / 16, by omega, h⟩
      · exact ⟨b % 16 * 4 + c / 64, by omega, h⟩
      · exact ⟨c % 64, by omega, h⟩
      · exact b64EncodeCore_chars rest (fun x hx => hb x (by simp [hx])) ch h

theorem b64Pad_add_three (n : Nat) : b64Pad (n + 3) = b64Pad n := by
  simp [b64Pad, Nat.add_mod_right]

theorem b64Encode_length_mod : ∀ (bytes : List Nat), (b64Encode bytes).length % 4 = 0
  | [] => by simp [b64Encode, b64EncodeCore, b64Pad]
  | [a] => by simp [b64Encode, b64EncodeCore, b64Pad]
  | [a, b] => by simp [b64Encode, b64EncodeCore, b64Pad]
  | a :: b :: c :: rest => by
      have ih := b64Encode_length_mod rest
      have hpad : b64Pad (a :: b :: c :: rest).length = b64Pad rest.length := by
        simp only [List.length_cons]
        have : rest.length + 1 + 1 + 1 = rest.length + 3 := by omega
        rw [this, b64Pad_add_three]
      rw [b64Encode, b64EncodeCore, hpad]
      simp only [List.length_append, List.length_cons]
      rw [b64Encode] at ih
      simp only [List.length_append] at ih
      omega

theorem stripB64Padding_no_eq (cs : List Char) (h : Char.ofNat 61 ∉ cs) :
    stripB64Padding cs = cs := by
  rw [stripB64Padding]
  split
  · match hrev : cs.reverse with
    | [] => simp
    | [c] => simp
    | c :: d :: rest =>
        have hc : c ∈ cs := by
          rw [← List.mem_reverse, hrev]; simp
        simp only []
        rw [if_neg]
        intro hce
        exact h (hce ▸ hc)
  · rfl

theorem b64EncodeCore_ne_nil : ∀ (bytes : List Nat), bytes ≠ [] → b64EncodeCore bytes ≠ []
  | [], h => absurd rfl h
  | [a], _ => by simp [b64EncodeCore]
  | [a, b], _ => by simp [b64EncodeCore]
  | a :: b :: c :: rest, _ => by rw [b64EncodeCore]; simp

theorem stripB64Padding_two (core : List Char)
    (h4 : (core ++ [Char.ofNat 61, Char.ofNat 61]).length % 4 = 0) :
    stripB64Padding (core ++ [Char.ofNat 61, Char.ofNat 61]) = core := by
  have hrev : (core ++ [Char.ofNat 61, Char.ofNat 61]).reverse
      = Char.ofNat 61 :: Char.ofNat 61 :: core.reverse := by simp
  rw [stripB64Padding, if_pos h4]
  split
  · rename_i c d rest heq
    rw [hrev] at heq
    injection heq with h1 h2
    injection h2 with h2 h3
    rw [if_pos h1.symm, if_pos h2.symm, ← h3, List.reverse_reverse]
  · rename_i h
    exact absurd (hrev.symm.trans rfl) (by intro hh; exact h _ _ _ (hrev.trans rfl))

theorem stripB64Padding_one (core : List Char) (hne : core ≠ [])
    (hnoeq : Char.ofNat 61 ∉ core)
    (h4 : (core ++ [Char.ofNat 61]).length % 4 = 0) :
    stripB64Padding (core ++ [Char.ofNat 61]) = core := by
  have hrne : core.reverse ≠ [] := fun h => hne (List.reverse_eq_nil_iff.mp h)
  obtain ⟨d, rest, hdr⟩ := List.exists_cons_of_ne_nil hrne
  have hrev : (core ++ [Char.ofNat 61]).reverse = Char.ofNat 61 :: d :: rest := by
    simp [hdr]
  have hd : d ∈ core := List.mem_reverse.mp (by rw [hdr]; simp)
  have hdne : d ≠ Char.ofNat 61 := fun h => hnoeq (h ▸ hd)
  rw [stripB64Padding, if_pos h4]
  split
  · rename_i c d' rest' heq
    rw [hrev] at heq
    injection heq with h1 h2
    injection h2 with h2 h3
    rw [if_pos h1.symm, if_neg (h2 ▸ hdne), ← h2, ← h3, ← hdr, List.reverse_reverse]
  · rename_i h
    exact absurd hrev (by intro hh; exact h _ _ _ hh)

theorem stripB64Padding_b64Encode (bytes : List Nat) (hb : ∀ b ∈ bytes, b < 256) :
    stripB64Padding (b64Encode bytes) = b64EncodeCore bytes := by
  have h4 := b64Encode_length_mod bytes
  have hnoeq : Char.ofNat 61 ∉ b64EncodeCore bytes := by
    intro hmem
    obtain ⟨k, hk, hch⟩ := b64EncodeCore_chars bytes hb _ hmem
    exact sextetChar_ne_eq k hk hch.symm
  have h3 : bytes.length % 3 = 0 ∨ bytes.length % 3 = 1 ∨ bytes.length % 3 = 2 := by omega
  rcases h3 with h3 | h3 | h3
  · have hpad : b64Pad bytes.length = [] := by simp [b64Pad, h3]
    rw [b64Encode, hpad, List.append_nil]
    exact stripB64Padding_no_eq _ hnoeq
  · have hpad : b64Pad bytes.length = [Char.ofNat 61, Char.ofNat 61] := by simp [b64Pad, h3]
    rw [b64Encode, hpad] at h4 ⊢
    exact stripB64Padding_two _ h4
  · have hpad : b64Pad bytes.length = [Char.ofNat 61] := by simp [b64Pad, h3]
    have hne : bytes ≠ [] := by
      intro h
      rw [h] at h3
      simp at h3
    rw [b64Encode, hpad] at h4 ⊢
    exact stripB64Padding_one _ (b64EncodeCore_ne_nil bytes hne) hnoeq h4

theorem b64DecodeChunks_encodeCore : ∀ (bytes : List Nat), (∀ b ∈ bytes, b < 256) →
    b64DecodeChunks (b64EncodeCore bytes) = some bytes
  | [], _ => rfl
  | [a], hb => by
      have ha : a < 256 := hb a (by simp)
      have e1 := charSextet_sextetChar (a / 4) (by omega)
      have e2 := charSextet_sextetChar (a % 4 * 16) (by omega)
      rw [b64EncodeCore]
      simp [b64DecodeChunks, e1, e2]
      omega
  | [a, b], hb => by
      have ha : a < 256 := hb a (by simp)
      have hb2 : b < 256 := hb b (by simp)
      have e1 := charSextet_sextetChar (a / 4) (by omega)
      have e2 := charSextet_sextetChar (a % 4 * 16 + b / 16) (by omega)
      have e3 := charSextet_sextetChar (b % 16 * 4) (by omega)
      rw [b64EncodeCore]
      simp [b64DecodeChunks, e1, e2, e3]
      constructor <;> omega
  | a :: b :: c :: rest, hb => by
      have ha : a < 256 := hb a (by simp)
      have hb2 : b < 256 := hb b (by simp)
      have hc : c < 256 := hb c (by simp)
      have ih := b64DecodeChunks_encodeCore rest (fun x hx => hb x (by simp [hx]))
      have e1 := charSextet_sextetChar (a / 4) (by omega)
      have e2 := charSextet_sextetChar (a % 4 * 16 + b / 16) (by omega)
      have e3 := charSextet_sextetChar (b % 16 * 4 + c / 64) (by omega)
      have e4 := charSextet_sextetChar (c % 64) (by omega)
      rw [b64EncodeCore]
      simp [b64DecodeChunks, e1, e2, e3, e4, ih]
      refine ⟨by omega, by omega, by omega⟩

/-- Claim C8: decoding the base64 encoding of a binary payload yields
exactly the payload back: the bytes of `base64ToBlob (blobToBase64 x)`
equal the bytes of `x`, for every byte list `x`. -/
theorem base64_roundtrip (bytes : List Nat) (hb : ∀ b ∈ bytes, b < 256) :
    base64ToBlob (blobToBase64 bytes) "audio/wav" = some bytes := by
  have htl : (blobToBase64 bytes).toList = b64Encode bytes := rfl
  have hfilt : (b64Encode bytes).filter (fun c => !isB64Whitespace c) = b64Encode bytes := by
    rw [List.filter_eq_self]
    intro ch hch
    rw [b64Encode, List.mem_append] at hch
    rcases hch with hch | hch
    · obtain ⟨k, hk, hcheq⟩ := b64EncodeCore_chars bytes hb _ hch
      rw [hcheq, sextetChar_not_ws k hk]
      rfl
    · rw [b64Pad] at hch
      have : ch = Char.ofNat 61 := by
        split at hch <;> simp_all
      rw [this]
      rfl
  rw [base64ToBlob, atobBytes, htl, hfilt, stripB64Padding_b64Encode bytes hb]
  exact b64DecodeChunks_encodeCore bytes hb

/-- Witness for C8 at a concrete three-byte payload. -/
theorem base64_roundtrip_check :
    (∀ b ∈ [77, 0, 255], b < 256) ∧
      base64ToBlob (blobToBase64 [77, 0, 255]) "audio/wav" = some [77, 0, 255] :=
  ⟨by decide, base64_roundtrip [77, 0, 255] (by decide)⟩

/-- The `PostProcessingParameters` snapshot stored as `advancedSettings`.
The numeric fields are only carried through storage, never computed with,
so they are modelled as integers. -/
structure AdvancedSettings where
  reverb : Int
  bassBoost : Int
  treble : Int
  speed : Int
  temperature : Int
  cfgCoef : Int
  topK : Int
  topP : Int
  useSampling : Bool
deriving DecidableEq, Repr

/-- The `DBTrack` record shape persisted in the `tracks` object store. -/
structure DBTrack where
  id : Int
  prompt : String
  duration : String
  date : String
  audioBlob : List Nat
  advancedSettings : Option AdvancedSettings
  isEdited : Option Bool
deriving DecidableEq, Repr

/-- The argument type of `addTrack` in db.ts:
`Omit<DBTrack, 'id'> & { id?: number }` — the id may be absent. -/
structure NewTrack where
  id : Option Int
  prompt : String
  duration : String
  date : String
  audioBlob : List Nat
  advancedSettings : Option AdvancedSettings
  isEdited : Option Bool
deriving DecidableEq, Repr

/-- JS truthiness of the optional numeric id: `undefined` and `0` are
falsy, every other number is truthy (ids are integral timestamps, so the
other falsy numbers NaN and -0 do not arise). -/
def jsIdOrNow : Option Int → Int → Int
  | none, now => now
  | some v, now => if v = 0 then now else v

/-- The record actually written by `addTrack`:
`{ ...track, id: track.id || Date.now() }`. -/
def trackToSave (track : NewTrack) (now : Int) : DBTrack :=
  { id := jsIdOrNow track.id now
    prompt := track.prompt
    duration := track.duration
    date := track.date
    audioBlob := track.audioBlob
    advancedSettings := track.advancedSettings
    isEdited := track.isEdited }

/-- IndexedDB `store.put` semantics for an object store with key path
`id`: insert the record, or overwrite the existing record with the same
key.  The store is modelled as a list of records; the engine's internal
key order is irrelevant because every read below sorts explicitly. -/
def idbPut (store : List DBTrack) (t : DBTrack) : List DBTrack :=
  if store.any (fun r => decide (r.id = t.id)) then
    store.map (fun r => if r.id = t.id then t else r)
  else store ++ [t]

/-- db.ts `addTrack`: ensure an id, `store.put`, resolve with the id.
There is no validation of `audioBlob` anywhere in the function. -/
def addTrack (store : List DBTrack) (track : NewTrack) (now : Int) :
    List DBTrack × Int :=
  let saved := trackToSave track now
  (idbPut store saved, saved.id)

/-- db.ts `getAllTracks`: read all records, then
`tracks.sort((a, b) => b.id - a.id)` — descending by id. -/
def getAllTracks (store : List DBTrack) : List DBTrack :=
  store.mergeSort (fun a b => decide (b.id ≤ a.id))

/-- db.ts `deleteTrack`: `store.delete(id)`; deleting an absent key
succeeds and removes nothing. -/
def deleteTrack (store : List DBTrack) (i : Int) : List DBTrack :=
  store.filter (fun r => decide (r.id ≠ i))

theorem mem_idbPut (store : List DBTrack) (t : DBTrack) : t ∈ idbPut store t := by
  rw [idbPut]
  split
  · rename_i h
    rw [List.any_eq_true] at h
    obtain ⟨r, hr, hid⟩ := h
    rw [decide_eq_true_iff] at hid
    exact List.mem_map.mpr ⟨r, hr, by rw [if_pos hid]⟩
  · exact List.mem_append.mpr (Or.inr (by simp))

/-- A record carrying no usable audio payload: its blob is empty. -/
def noAudioTrack : NewTrack :=
  { id := some 7, prompt := "p", duration := "10s", date := "d",
    audioBlob := [], advancedSettings := none, isEdited := none }

/-- Claim C1 counterexample: `addTrack` accepts a record whose `audioBlob`
is empty — the call succeeds, resolves with the record's id, and writes
the record, with its empty blob, into the store; the claim says such a
call is rejected and writes nothing. -/
theorem addTrack_accepts_empty_blob :
    (addTrack [] noAudioTrack 1000).2 = 7 ∧
      (addTrack [] noAudioTrack 1000).1 =
        [{ id := 7, prompt := "p", duration := "10s", date := "d",
           audioBlob := [], advancedSettings := none, isEdited := none }] :=
  ⟨rfl, rfl⟩

/-- Claim C1 (amended): `addTrack` performs no `audioBlob` validation at
all: every call — including one whose record has an empty `audioBlob` —
writes `trackToSave track now` into the store and resolves with that
record's id.  The non-empty-blob invariant is maintained only by the
callers, never enforced at this layer. -/
theorem addTrack_always_writes (store : List DBTrack) (track : NewTrack) (now : Int) :
    trackToSave track now ∈ (addTrack store track now).1 ∧
      (addTrack store track now).2 = (trackToSave track now).id :=
  ⟨mem_idbPut store (trackToSave track now), rfl⟩

/-- A record passed to `addTrack` with an explicit id of 0. -/
def zeroIdTrack : NewTrack :=
  { id := some 0, prompt := "z", duration := "5s", date := "d",
    audioBlob := [1], advancedSettings := none, isEdited := none }

/-- A record passed to `addTrack` with the nonzero id 7. -/
def sevenIdTrack : NewTrack :=
  { id := some 7, prompt := "s", duration := "5s", date := "d",
    audioBlob := [1], advancedSettings := none, isEdited := none }

/-- Claim C10: `track.id || Date.now()` treats any falsy id — absent or
explicitly 0 — as missing: the record is saved under the fresh `now` id,
which is also returned; a nonzero id is saved under and returned as
exactly that id. -/
theorem addTrack_falsy_id (store : List DBTrack) (track : NewTrack) (now : Int) :
    ((track.id = some 0 ∨ track.id = none) →
      (addTrack store track now).2 = now ∧
        (trackToSave track now).id = now ∧
        trackToSave track now ∈ (addTrack store track now).1) ∧
    (∀ v, track.id = some v → v ≠ 0 →
      (addTrack store track now).2 = v ∧
        (trackToSave track now).id = v ∧
        trackToSave track now ∈ (addTrack store track now).1) := by
  have h2 : (addTrack store track now).2 = (trackToSave track now).id := rfl
  constructor
  · intro h
    have hid : (trackToSave track now).id = now := by
      rcases h with h | h <;> simp [trackToSave, jsIdOrNow, h]
    exact ⟨h2.trans hid, hid, mem_idbPut _ _⟩
  · intro v hv hnz
    have hid : (trackToSave track now).id = v := by
      simp [trackToSave, jsIdOrNow, hv, hnz]
    exact ⟨h2.trans hid, hid, mem_idbPut _ _⟩

/-- Witness for C10: with `Date.now()` equal to 500, an explicit id 0 is
replaced by 500 while id 7 is kept as is. -/
theorem addTrack_falsy_id_check :
    (addTrack [] zeroIdTrack 500).2 = 500 ∧ (addTrack [] sevenIdTrack 500).2 = 7 :=
  ⟨((addTrack_falsy_id [] zeroIdTrack 500).1 (Or.inl rfl)).1,
   ((addTrack_falsy_id [] sevenIdTrack 500).2 7 rfl (by decide)).1⟩

/-- Claim C6: `getAllTracks` returns every stored record — a permutation
of the store contents — sorted in descending order of `id`, whatever
order the records were inserted in. -/
theorem getAllTracks_sorted_desc (store : List DBTrack) :
    (getAllTracks store).Perm store ∧
      (getAllTracks store).Sorted (fun a b => b.id ≤ a.id) := by
  constructor
  · exact List.mergeSort_perm store _
  · have htr : ∀ a b c : DBTrack, decide (b.id ≤ a.id) = true →
        decide (c.id ≤ b.id) = true → decide (c.id ≤ a.id) = true := by
      intro a b c h1 h2
      rw [decide_eq_true_iff] at h1 h2 ⊢
      omega
    have hto : ∀ a b : DBTrack,
        (decide (b.id ≤ a.id) || decide (a.id ≤ b.id)) = true := by
      intro a b
      rcases le_total b.id a.id with h | h <;> simp [h]
    have hp := List.sorted_mergeSort htr hto store
    exact hp.imp (fun h => by rwa [decide_eq_true_iff] at h)

theorem filter_map_no_match (rest : List DBTrack) (t : DBTrack)
    (h : ∀ x ∈ rest, x.id ≠ t.id) :
    (rest.map (fun r => if r.id = t.id then t else r)).filter
      (fun r => decide (r.id = t.id)) = [] := by
  induction rest with
  | nil => simp
  | cons x xs ih =>
      have hx : x.id ≠ t.id := h x (by simp)
      rw [List.map_cons, if_neg hx, List.filter_cons_of_neg]
      · exact ih (fun y hy => h y (by simp [hy]))
      · simp [hx]

theorem filter_no_match (rest : List DBTrack) (t : DBTrack)
    (h : ∀ x ∈ rest, x.id ≠ t.id) :
    rest.filter (fun r => decide (r.id = t.id)) = [] := by
  rw [List.filter_eq_nil_iff]
  intro x hx
  simp [h x hx]

theorem filter_idbPut (store : List DBTrack) (t : DBTrack)
    (hnd : (store.map DBTrack.id).Nodup) :
    (idbPut store t).filter (fun r => decide (r.id = t.id)) = [t] := by
  induction store with
  | nil => simp [idbPut]
  | cons r rest ih =>
      rw [List.map_cons, List.nodup_cons] at hnd
      by_cases hr : r.id = t.id
      · have hrest : ∀ x ∈ rest, x.id ≠ t.id := by
          intro x hx heq
          apply hnd.1
          rw [hr, ← heq]
          exact List.mem_map_of_mem DBTrack.id hx
        rw [idbPut, if_pos (by simp [hr]), List.map_cons, if_pos hr,
          List.filter_cons_of_pos (by simp), filter_map_no_match rest t hrest]
      · have hput : (idbPut (r :: rest) t).filter (fun x => decide (x.id = t.id)) =
            (idbPut rest t).filter (fun x => decide (x.id = t.id)) := by
          by_cases hany : rest.any (fun x => decide (x.id = t.id))
          · rw [idbPut, if_pos (by simp [List.any_cons, hany]), List.map_cons, if_neg hr,
              List.filter_cons_of_neg (by simp [hr]), idbPut, if_pos hany]
          · rw [idbPut, if_neg (by simp [List.any_cons, hany, hr]), List.cons_append,
              List.filter_cons_of_neg (by simp [hr]), idbPut, if_neg (by simpa using hany)]
        rw [hput]
        exact ih hnd.2

theorem idbPut_ids_any (store : List DBTrack) (t : DBTrack)
    (h : store.any (fun r => decide (r.id = t.id)) = true) :
    (idbPut store t).map DBTrack.id = store.map DBTrack.id := by
  rw [idbPut, if_pos h, List.map_map]
  apply List.map_congr_left
  intro x hx
  by_cases hxe : x.id = t.id
  · simp [Function.comp, hxe]
  · simp [Function.comp, hxe]

theorem idbPut_nodup (store : List DBTrack) (t : DBTrack)
    (hnd : (store.map DBTrack.id).Nodup) :
    ((idbPut store t).map DBTrack.id).Nodup := by
  by_cases h : store.any (fun r => decide (r.id = t.id)) = true
  · rw [idbPut_ids_any store t h]
    exact hnd
  · rw [idbPut, if_neg h, List.map_append]
    simp only [List.map_cons, List.map_nil]
    rw [List.nodup_append]
    refine ⟨hnd, List.nodup_singleton _, fun a ha hb => ?_⟩
    simp only [List.mem_singleton] at hb
    subst hb
    obtain ⟨r, hr, hrid⟩ := List.mem_map.mp ha
    exact h (List.any_eq_true.mpr ⟨r, hr, by simp [hrid]⟩)

/-- Claim C5: after `addTrack`, `getAllTracks` contains exactly one entry
with the written id, and that entry equals the record just written —
writing an existing id overwrites in place and never appends a duplicate,
for any prior store whose ids are unique. -/
theorem addTrack_last_write_wins (store : List DBTrack) (track : NewTrack) (now : Int)
    (hnd : (store.map DBTrack.id).Nodup) :
    (getAllTracks (addTrack store track now).1).filter
        (fun r => decide (r.id = (addTrack store track now).2)) =
      [trackToSave track now] ∧
    (((addTrack store track now).1).map DBTrack.id).Nodup := by
  have hstore : (addTrack store track now).1 = idbPut store (trackToSave track now) := rfl
  have hid : (addTrack store track now).2 = (trackToSave track now).id := rfl
  constructor
  · have hperm : (getAllTracks (addTrack store track now).1).Perm
        ((addTrack store track now).1) := List.mergeSort_perm _ _
    have hfperm := hperm.filter (fun r => decide (r.id = (trackToSave track now).id))
    rw [hstore, filter_idbPut store (trackToSave track now) hnd] at hfperm
    rw [hid]
    exact List.perm_singleton.mp hfperm
  · rw [hstore]
    exact idbPut_nodup store (trackToSave track now) hnd

/-- Witness for C5: writing id 7 into a store that already holds a record
with id 7 overwrites it in place, leaving exactly one entry. -/
theorem addTrack_last_write_wins_check :
    ((((addTrack [] sevenIdTrack 500).1).map DBTrack.id).Nodup) ∧
      ((getAllTracks (addTrack (addTrack [] sevenIdTrack 500).1 noAudioTrack 600).1).filter
          (fun r =>
            decide (r.id = (addTrack (addTrack [] sevenIdTrack 500).1 noAudioTrack 600).2)) =
        [trackToSave noAudioTrack 600] ∧
      (((addTrack (addTrack [] sevenIdTrack 500).1 noAudioTrack 600).1).map DBTrack.id).Nodup) :=
  ⟨by decide,
   addTrack_last_write_wins (addTrack [] sevenIdTrack 500).1 noAudioTrack 600 (by decide)⟩

/-- Process-wide state seen by db.ts: the `tracks` store contents plus a
count of how many times `indexedDB.open` has been invoked (each invocation
yields its own `IDBDatabase` connection). -/
structure ProcState where
  openedConnections : Nat
  store : List DBTrack
deriving DecidableEq, Repr

/-- db.ts `initDB`: the function body runs `indexedDB.open(DB_NAME,
DB_VERSION)` unconditionally — there is no cached connection, no module
level promise, no single-flight guard — so every call creates one more
connection.  (The `onupgradeneeded` object-store creation is driven by the
browser only on a version increase and does not affect the contents.) -/
def initDB (s : ProcState) : ProcState :=
  { openedConnections := s.openedConnections + 1, store := s.store }

/-- The repository operations exposed by db.ts. -/
inductive DbOp where
  | add (track : NewTrack) (now : Int)
  | list
  | del (i : Int)
deriving Repr

/-- Each exported operation awaits `initDB()` first and then runs its
transaction on the connection it was handed. -/
def runOp (s : ProcState) : DbOp → ProcState
  | .add track now =>
      let s1 := initDB s
      { openedConnections := s1.openedConnections,
        store := (addTrack s1.store track now).1 }
  | .list => initDB s
  | .del i =>
      let s1 := initDB s
      { openedConnections := s1.openedConnections, store := deleteTrack s1.store i }

/-- A sequence of repository operations, run in order. -/
def runOps (s : ProcState) (ops : List DbOp) : ProcState :=
  ops.foldl runOp s

/-- Claim C7 counterexample: two repository calls starting from a fresh
process open two connections, not one shared lazily-opened connection. -/
theorem initDB_not_single_flight :
    (runOps { openedConnections := 0, store := [] } [DbOp.list, DbOp.list]).openedConnections
      = 2 := rfl

/-- Claim C7 (amended): opening is per-call, not single-flight: every
repository operation (`addTrack`, `getAllTracks`, `deleteTrack`) awaits
`initDB`, which invokes `indexedDB.open` afresh, so after any sequence of
operations the number of connections opened equals the number of
operations run — connections are never cached or shared between calls. -/
theorem runOps_opens_per_call (s : ProcState) (ops : List DbOp) :
    (runOps s ops).openedConnections = s.openedConnections + ops.length := by
  induction ops generalizing s with
  | nil => simp [runOps]
  | cons op rest ih =>
      have hstep : ∀ t : ProcState, (runOp t op).openedConnections =
          t.openedConnections + 1 := by
        intro t
        cases op <;> rfl
      rw [runOps, List.foldl_cons]
      have := ih (runOp s op)
      rw [runOps] at this
      rw [this, hstep s, List.length_cons]
      omega

/-- A parsed entry of the Legacy Archive value held under the flat
localStorage key: the older `MusicTrack` shape minus the transient
`audioUrl`. -/
structure LegacyTrack where
  id : Int
  prompt : String
  duration : String
  date : String
  base64Audio : Option String
  advancedSettings : Option AdvancedSettings
deriving DecidableEq, Repr

/-- JS truthiness of the optional `base64Audio` string: `undefined` and
the empty string are falsy. -/
def jsTruthyStrOpt : Option String → Bool
  | none => false
  | some s => decide (s ≠ "")

/-- The record the migration passes to `addTrack` for one legacy entry:
id, prompt, duration, date and advancedSettings are copied and the decoded
bytes become `audioBlob`; `isEdited` is not passed. -/
def legacyToNew (tr : LegacyTrack) (bytes : List Nat) : NewTrack :=
  { id := some tr.id, prompt := tr.prompt, duration := tr.duration,
    date := tr.date, audioBlob := bytes,
    advancedSettings := tr.advancedSettings, isEdited := none }

/-- The `for … of legacyHistory` loop of `loadHistory`: entries with falsy
`base64Audio` are skipped; an entry with decodable audio is decoded with
`base64ToBlob(…, "audio/wav")` and upserted via `addTrack`; an entry whose
audio does not decode makes `atob` throw, which aborts the whole loop —
the single `catch` sits outside the loop.  Returns the store reached and
whether the loop completed without throwing. -/
def migrateLoop (now : Int) : List LegacyTrack → List DBTrack → List DBTrack × Bool
  | [], store => (store, true)
  | tr :: rest, store =>
    if jsTruthyStrOpt tr.base64Audio then
      match base64ToBlob (tr.base64Audio.getD "") "audio/wav" with
      | some bytes => migrateLoop now rest (addTrack store (legacyToNew tr bytes) now).1
      | none => (store, false)
    else migrateLoop now rest store

/-- Outcome of one migration pass: the resulting store and whether
`localStorage.removeItem(HISTORY_STORAGE_KEY)` ran.  The removal is the
last statement of the same `try` block as the loop, so it runs exactly
when the loop completed without throwing. -/
structure MigrationOutcome where
  store : List DBTrack
  legacyKeyRemoved : Bool
deriving DecidableEq, Repr

/-- The legacy-migration phase of `loadHistory`, applied to an archive
value that parsed to `entries`. -/
def runMigration (entries : List LegacyTrack) (store : List DBTrack) (now : Int) :
    MigrationOutcome :=
  let r := migrateLoop now entries store
  { store := r.1, legacyKeyRemoved := r.2 }

/-- The persisted record a legacy entry migrates to, when its audio is
present and decodable; `none` when the entry has no audio to migrate. -/
def migratedTrack (tr : LegacyTrack) (now : Int) : Option DBTrack :=
  if jsTruthyStrOpt tr.base64Audio then
    (base64ToBlob (tr.base64Audio.getD "") "audio/wav").map
      (fun bytes => trackToSave (legacyToNew tr bytes) now)
  else none

/-- All records a legacy archive migrates to, in archive order. -/
def migratedTracks (entries : List LegacyTrack) (now : Int) : List DBTrack :=
  entries.filterMap (fun tr => migratedTrack tr now)

/-- An entry is decodable if its audio, when present, decodes. -/
def entryDecodes (tr : LegacyTrack) : Prop :=
  jsTruthyStrOpt tr.base64Audio = true →
    (base64ToBlob (tr.base64Audio.getD "") "audio/wav").isSome = true

instance (tr : LegacyTrack) : Decidable (entryDecodes tr) := by
  unfold entryDecodes
  infer_instance

theorem migrateLoop_all_decodable (now : Int) :
    ∀ (entries : List LegacyTrack) (store : List DBTrack),
      (∀ tr ∈ entries, entryDecodes tr) →
      (∀ tr ∈ entries, tr.id ≠ 0) →
      (∀ tr ∈ entries, tr.id ∉ store.map DBTrack.id) →
      (entries.map LegacyTrack.id).Nodup →
      migrateLoop now entries store = (store ++ migratedTracks entries now, true)
  | [], store, _, _, _, _ => by simp [migrateLoop, migratedTracks]
  | tr :: rest, store, hdec, hnz, hfresh, hnd => by
      rw [List.map_cons, List.nodup_cons] at hnd
      by_cases ht : jsTruthyStrOpt tr.base64Audio = true
      · obtain ⟨bytes, hbytes⟩ := Option.isSome_iff_exists.mp (hdec tr (by simp) ht)
        have hsid : (trackToSave (legacyToNew tr bytes) now).id = tr.id := by
          simp [trackToSave, legacyToNew, jsIdOrNow, hnz tr (by simp)]
        have happend : (addTrack store (legacyToNew tr bytes) now).1 =
            store ++ [trackToSave (legacyToNew tr bytes) now] := by
          show idbPut store (trackToSave (legacyToNew tr bytes) now) = _
          rw [idbPut, if_neg ?_]
          intro hany
          rw [List.any_eq_true] at hany
          obtain ⟨r, hr, hrid⟩ := hany
          rw [decide_eq_true_iff, hsid] at hrid
          exact hfresh tr (by simp) (hrid ▸ List.mem_map_of_mem DBTrack.id hr)
        have hmt : migratedTrack tr now = some (trackToSave (legacyToNew tr bytes) now) := by
          rw [migratedTrack, if_pos ht, hbytes]
          rfl
        have hfresh2 : ∀ tr2 ∈ rest,
            tr2.id ∉ (store ++ [trackToSave (legacyToNew tr bytes) now]).map DBTrack.id := by
          intro tr2 htr2
          rw [List.map_append, List.mem_append]
          rintro (hin | hin)
          · exact hfresh tr2 (by simp [htr2]) hin
          · rw [List.map_cons, List.map_nil, List.mem_singleton, hsid] at hin
            exact hnd.1 (hin ▸ List.mem_map_of_mem LegacyTrack.id htr2)
        rw [migrateLoop, if_pos ht, hbytes]
        show migrateLoop now rest (addTrack store (legacyToNew tr bytes) now).1 =
          (store ++ migratedTracks (tr :: rest) now, true)
        rw [happend,
          migrateLoop_all_decodable now rest _
            (fun x hx => hdec x (by simp [hx])) (fun x hx => hnz x (by simp [hx]))
            hfresh2 hnd.2]
        simp only [migratedTracks, List.filterMap_cons, hmt, List.append_assoc,
          List.singleton_append]
      · have hmt : migratedTrack tr now = none := by
          rw [migratedTrack, if_neg ht]
        rw [migrateLoop, if_neg ht,
          migrateLoop_all_decodable now rest store
            (fun x hx => hdec x (by simp [hx])) (fun x hx => hnz x (by simp [hx]))
            (fun x hx => hfresh x (by simp [hx])) hnd.2]
        simp only [migratedTracks, List.filterMap_cons, hmt]

/-- Claim C2 (amended): when every legacy entry whose `base64Audio` is
present (truthy) decodes, the migration pass inserts exactly those entries
— preserving id, prompt, duration, date and advancedSettings, with the
decoded bytes as `audioBlob` — and removes the Legacy Archive key, also
when no entry qualifies.  (When some present audio is undecodable, the
loop instead aborts at that entry and keeps the key: see the
counterexample.) -/
theorem migration_all_decodable (entries : List LegacyTrack) (now : Int)
    (hdec : ∀ tr ∈ entries, entryDecodes tr)
    (hnz : ∀ tr ∈ entries, tr.id ≠ 0)
    (hnd : (entries.map LegacyTrack.id).Nodup) :
    runMigration entries [] now =
      { store := migratedTracks entries now, legacyKeyRemoved := true } ∧
    ∀ tr ∈ entries, jsTruthyStrOpt tr.base64Audio = true →
      ∃ d ∈ migratedTracks entries now,
        d.id = tr.id ∧ d.prompt = tr.prompt ∧ d.duration = tr.duration ∧
        d.date = tr.date ∧ d.advancedSettings = tr.advancedSettings ∧
        some d.audioBlob = base64ToBlob (tr.base64Audio.getD "") "audio/wav" := by
  constructor
  · rw [runMigration, migrateLoop_all_decodable now entries [] hdec hnz (by simp) hnd]
    rfl
  · intro tr htr ht
    obtain ⟨bytes, hbytes⟩ := Option.isSome_iff_exists.mp (hdec tr htr ht)
    refine ⟨trackToSave (legacyToNew tr bytes) now, ?_, ?_, rfl, rfl, rfl, rfl, ?_⟩
    · apply List.mem_filterMap.mpr
      refine ⟨tr, htr, ?_⟩
      rw [migratedTrack, if_pos ht, hbytes]
      rfl
    · simp [trackToSave, legacyToNew, jsIdOrNow, hnz tr htr]
    · rw [hbytes]
      rfl

/-- A legacy entry whose audio is present but not decodable: "!!" has
characters outside the base64 alphabet, so `atob` throws. -/
def badLegacyEntry : LegacyTrack :=
  { id := 1, prompt := "a", duration := "5s", date := "d",
    base64Audio := some "!!", advancedSettings := none }

/-- A legacy entry with decodable audio "QUJD" (bytes 65, 66, 67). -/
def goodLegacyEntry : LegacyTrack :=
  { id := 2, prompt := "b", duration := "5s", date := "d",
    base64Audio := some "QUJD", advancedSettings := none }

/-- Claim C2 counterexample: for a two-entry archive whose first entry is
undecodable and whose second decodes, the run inserts nothing — the good
entry behind the bad one is dropped because the loop aborts rather than
skips — and the Legacy Archive key is not removed; the claim asks for
exactly the one decodable entry to be inserted and the key removed. -/
theorem migration_abort_counterexample :
    (runMigration [badLegacyEntry, goodLegacyEntry] [] 1000).legacyKeyRemoved = false ∧
      (runMigration [badLegacyEntry, goodLegacyEntry] [] 1000).store = [] := by
  constructor <;> rfl

/-- The spec's own migration scenario: entry 1 carries decodable audio
"QUJD", entry 2 has no audio at all. -/
def legacyScenario : List LegacyTrack :=
  [{ id := 1, prompt := "a", duration := "5s", date := "d",
     base64Audio := some "QUJD", advancedSettings := none },
   { id := 2, prompt := "b", duration := "5s", date := "d",
     base64Audio := none, advancedSettings := none }]

/-- Witness for C2 on the spec's scenario: exactly the decodable entry is
inserted and the legacy key is removed. -/
theorem migration_all_decodable_check :
    (∀ tr ∈ legacyScenario, entryDecodes tr) ∧
      runMigration legacyScenario [] 1000 =
        { store := migratedTracks legacyScenario 1000, legacyKeyRemoved := true } :=
  ⟨by decide,
   (migration_all_decodable legacyScenario 1000 (by decide) (by decide) (by decide)).1⟩

/-- The in-memory `MusicTrack` of the flat-storage App: the transient
object URL is an optional token (null when restoration failed). -/
structure FlatTrack where
  id : Int
  prompt : String
  duration : String
  date : String
  audioUrl : Option Nat
  base64Audio : Option String
deriving DecidableEq, Repr

/-- What the persistence effect writes: the track with `audioUrl`
destructured away (`const { audioUrl, ...trackToStore } = track`). -/
structure StoredFlatTrack where
  id : Int
  prompt : String
  duration : String
  date : String
  base64Audio : Option String
deriving DecidableEq, Repr

/-- Strip the transient `audioUrl` before serializing. -/
def stripAudioUrl (t : FlatTrack) : StoredFlatTrack :=
  { id := t.id, prompt := t.prompt, duration := t.duration, date := t.date,
    base64Audio := t.base64Audio }

/-- Outcome of one `localStorage.setItem` call: success, a capacity error
(`QuotaExceededError` / code 22), or any other failure. -/
inductive WriteOutcome where
  | ok
  | quotaExceeded
  | otherFailure
deriving DecidableEq, Repr

/-- App.tsx `cleanupOldHistory`: keep the most recent `maxItems` entries
(the in-memory list is newest-first, so `slice(0, maxItems)` is the
most-recent prefix). -/
def cleanupOldHistory (history : List StoredFlatTrack) (maxItems : Nat) :
    List StoredFlatTrack :=
  if history.length ≤ maxItems then history else history.take maxItems

/-- The body of the history-persistence effect up to but not including its
outermost `try`: attempt the full serialized list; on a capacity error walk
the 20 → 10 → 5 ladder, stopping at the first success; the final 5-item
`setItem` is not guarded, so its failure is a thrown exception (`.error`).
A non-quota failure of the first write is caught and ignored.  `attempt`
abstracts whether a given serialized payload fits; `stored` is the current
value under the flat key, kept unchanged by any failed `setItem`. -/
def persistInner (attempt : List StoredFlatTrack → WriteOutcome)
    (stored : Option (List StoredFlatTrack)) (musicHistory : List FlatTrack) :
    Except Unit (Option (List StoredFlatTrack)) :=
  if musicHistory.length > 0 then
    let historyForStorage := musicHistory.map stripAudioUrl
    match attempt historyForStorage with
    | .ok => .ok (some historyForStorage)
    | .otherFailure => .ok stored
    | .quotaExceeded =>
      let cleaned20 := cleanupOldHistory historyForStorage 20
      match attempt cleaned20 with
      | .ok => .ok (some cleaned20)
      | _ =>
        let cleaned10 := cleanupOldHistory cleaned20 10
        match attempt cleaned10 with
        | .ok => .ok (some cleaned10)
        | _ =>
          let cleaned5 := cleanupOldHistory cleaned10 5
          match attempt cleaned5 with
          | .ok => .ok (some cleaned5)
          | _ => .error ()
  else .ok stored

/-- The whole persistence effect: the outermost `try { … } catch (error)
{ /* silently handle */ }` absorbs anything thrown inside, so the effect
never propagates an error to React; the flat key keeps its prior value
when everything failed. -/
def persistHistory (attempt : List StoredFlatTrack → WriteOutcome)
    (stored : Option (List StoredFlatTrack)) (musicHistory : List FlatTrack) :
    Option (List StoredFlatTrack) :=
  match persistInner attempt stored musicHistory with
  | .ok v => v
  | .error _ => stored

theorem cleanupOldHistory_take (history : List StoredFlatTrack) (maxItems : Nat) :
    cleanupOldHistory history maxItems = history.take maxItems := by
  rw [cleanupOldHistory]
  split
  · rename_i h
    rw [List.take_of_length_le h]
  · rfl

/-- Claim C4: when the full serialized write fails with a capacity error,
the effect retries with the 20, then 10, then 5 most-recent stored
entries, writing after each truncation and stopping at the first success,
so the persisted value equals exactly that most-recent prefix; if even the
5-item write fails, the inner code throws, the outermost catch absorbs it,
the stored value is unchanged and no error escapes to the caller. -/
theorem quota_ladder (attempt : List StoredFlatTrack → WriteOutcome)
    (stored : Option (List StoredFlatTrack)) (musicHistory : List FlatTrack)
    (hne : musicHistory ≠ [])
    (hfull : attempt (musicHistory.map stripAudioUrl) = WriteOutcome.quotaExceeded) :
    (attempt ((musicHistory.map stripAudioUrl).take 20) = WriteOutcome.ok →
      persistHistory attempt stored musicHistory =
        some ((musicHistory.map stripAudioUrl).take 20)) ∧
    (attempt ((musicHistory.map stripAudioUrl).take 20) ≠ WriteOutcome.ok →
      attempt ((musicHistory.map stripAudioUrl).take 10) = WriteOutcome.ok →
      persistHistory attempt stored musicHistory =
        some ((musicHistory.map stripAudioUrl).take 10)) ∧
    (attempt ((musicHistory.map stripAudioUrl).take 20) ≠ WriteOutcome.ok →
      attempt ((musicHistory.map stripAudioUrl).take 10) ≠ WriteOutcome.ok →
      attempt ((musicHistory.map stripAudioUrl).take 5) = WriteOutcome.ok →
      persistHistory attempt stored musicHistory =
        some ((musicHistory.map stripAudioUrl).take 5)) ∧
    (attempt ((musicHistory.map stripAudioUrl).take 20) ≠ WriteOutcome.ok →
      attempt ((musicHistory.map stripAudioUrl).take 10) ≠ WriteOutcome.ok →
      attempt ((musicHistory.map stripAudioUrl).take 5) ≠ WriteOutcome.ok →
      persistInner attempt stored musicHistory = Except.error () ∧
        persistHistory attempt stored musicHistory = stored) := by
  have hlen : musicHistory.length > 0 := List.length_pos.mpr hne
  have h20 : cleanupOldHistory (musicHistory.map stripAudioUrl) 20 =
      (musicHistory.map stripAudioUrl).take 20 := cleanupOldHistory_take _ _
  have h10 : cleanupOldHistory ((musicHistory.map stripAudioUrl).take 20) 10 =
      (musicHistory.map stripAudioUrl).take 10 := by
    rw [cleanupOldHistory_take, List.take_take]
    norm_num
  have h5 : cleanupOldHistory ((musicHistory.map stripAudioUrl).take 10) 5 =
      (musicHistory.map stripAudioUrl).take 5 := by
    rw [cleanupOldHistory_take, List.take_take]
    norm_num
  refine ⟨?_, ?_, ?_, ?_⟩
  · intro e20
    have hin : persistInner attempt stored musicHistory =
        Except.ok (some ((musicHistory.map stripAudioUrl).take 20)) := by
      rw [persistInner, if_pos hlen]
      simp only [hfull, h20, e20]
    rw [persistHistory, hin]
  · intro e20 e10
    have hin : persistInner attempt stored musicHistory =
        Except.ok (some ((musicHistory.map stripAudioUrl).take 10)) := by
      rw [persistInner, if_pos hlen]
      simp only [hfull, h20, h10]
      rcases ha : attempt ((musicHistory.map stripAudioUrl).take 20) with _ | _ | _ <;>
        first
        | exact absurd ha e20
        | simp only [ha, e10]
    rw [persistHistory, hin]
  · intro e20 e10 e5
    have hin : persistInner attempt stored musicHistory =
        Except.ok (some ((musicHistory.map stripAudioUrl).take 5)) := by
      rw [persistInner, if_pos hlen]
      simp only [hfull, h20, h10, h5]
      rcases ha : attempt ((musicHistory.map stripAudioUrl).take 20) with _ | _ | _ <;>
        first
        | exact absurd ha e20
        | (rcases hb : attempt ((musicHistory.map stripAudioUrl).take 10) with _ | _ | _ <;>
            first
            | exact absurd hb e10
            | simp only [ha, hb, e5])
    rw [persistHistory, hin]
  · intro e20 e10 e5
    have hin : persistInner attempt stored musicHistory = Except.error () := by
      rw [persistInner, if_pos hlen]
      simp only [hfull, h20, h10, h5]
    exact ⟨hin, by rw [persistHistory, hin]⟩

/-- A write oracle for the C4 witness: only payloads of at most 10 items
fit; larger ones raise the capacity error. -/
def fitsUpTo10 (l : List StoredFlatTrack) : WriteOutcome :=
  if l.length ≤ 10 then WriteOutcome.ok else WriteOutcome.quotaExceeded

/-- One synthetic in-memory track for the C4 witness. -/
def demoFlatTrack (i : Nat) : FlatTrack :=
  { id := Int.ofNat i, prompt := "p", duration := "10s", date := "d",
    audioUrl := none, base64Audio := none }

/-- A thirty-track in-memory history for the C4 witness. -/
def demoHistory : List FlatTrack := (List.range 30).map demoFlatTrack

/-- Witness for C4: with 30 tracks and room for 10, the full and 20-item
writes fail with the capacity error and the 10-item write succeeds, so
exactly the 10 most-recent stored entries end up persisted. -/
theorem quota_ladder_check :
    demoHistory ≠ [] ∧
      fitsUpTo10 (demoHistory.map stripAudioUrl) = WriteOutcome.quotaExceeded ∧
      persistHistory fitsUpTo10 none demoHistory =
        some ((demoHistory.map stripAudioUrl).take 10) :=
  ⟨by decide, by decide,
   (quota_ladder fitsUpTo10 none demoHistory (by decide) (by decide)).2.1
     (by decide) (by decide)⟩

/-- The `musicHistory` initializer of the flat-storage App, applied to the
parsed stored value: each stored track is restored with a fresh object URL
when its `base64Audio` is present and decodes, and with a null `audioUrl`
otherwise (the per-track `try` swallows decode failures).  `u` is the next
fresh URL token; URLs are handed out in list order. -/
def restoreTracks : Nat → List StoredFlatTrack → Nat × List FlatTrack
  | u, [] => (u, [])
  | u, t :: rest =>
    if jsTruthyStrOpt t.base64Audio then
      match base64ToBlob (t.base64Audio.getD "") "audio/wav" with
      | some _ =>
        let r := restoreTracks (u + 1) rest
        (r.1, { id := t.id, prompt := t.prompt, duration := t.duration, date := t.date,
                audioUrl := some u, base64Audio := t.base64Audio } :: r.2)
      | none =>
        let r := restoreTracks u rest
        (r.1, { id := t.id, prompt := t.prompt, duration := t.duration, date := t.date,
                audioUrl := none, base64Audio := t.base64Audio } :: r.2)
    else
      let r := restoreTracks u rest
      (r.1, { id := t.id, prompt := t.prompt, duration := t.duration, date := t.date,
              audioUrl := none, base64Audio := t.base64Audio } :: r.2)

/-- Startup load of the flat key: absent key gives an empty history,
otherwise the stored tracks are restored. -/
def loadStoredHistory (stored : Option (List StoredFlatTrack)) (u : Nat) : List FlatTrack :=
  match stored with
  | none => []
  | some v => (restoreTracks u v).2

/-- App.tsx `deleteFromHistory` (flat version): filter the track out of the
in-memory list; nothing is written here — persistence is left to the
effect. -/
def deleteFromHistoryFlat (musicHistory : List FlatTrack) (i : Int) : List FlatTrack :=
  musicHistory.filter (fun m => decide (m.id ≠ i))

theorem restoreTracks_strip : ∀ (u : Nat) (v : List StoredFlatTrack),
    (restoreTracks u v).2.map stripAudioUrl = v
  | _, [] => rfl
  | u, t :: rest => by
      rw [restoreTracks]
      by_cases ht : jsTruthyStrOpt t.base64Audio = true
      · rw [if_pos ht]
        rcases hdec : base64ToBlob (t.base64Audio.getD "") "audio/wav" with _ | bytes
        · simp only [List.map_cons, restoreTracks_strip u rest, stripAudioUrl]
        · simp only [List.map_cons, restoreTracks_strip (u + 1) rest, stripAudioUrl]
      · rw [if_neg ht]
        simp only [List.map_cons, restoreTracks_strip u rest, stripAudioUrl]

/-- Claim C9: the flat persistence effect writes only when the in-memory
list is non-empty, so deleting the last remaining track leaves the
previously persisted value under the flat key untouched, and the next
startup load restores exactly those persisted — deleted — tracks. -/
theorem stale_flat_history (attempt : List StoredFlatTrack → WriteOutcome)
    (V : List StoredFlatTrack) (musicHistory : List FlatTrack) (i : Int) (u : Nat)
    (hall : deleteFromHistoryFlat musicHistory i = []) :
    persistHistory attempt (some V) (deleteFromHistoryFlat musicHistory i) = some V ∧
      (loadStoredHistory (some V) u).map stripAudioUrl = V := by
  constructor
  · rw [hall]
    rfl
  · exact restoreTracks_strip u V

/-- Persisted value for the C9 witness. -/
def demoStored : List StoredFlatTrack :=
  [{ id := 1, prompt := "p", duration := "5s", date := "d", base64Audio := none }]

/-- In-memory history for the C9 witness: the one track about to be
deleted. -/
def demoMem : List FlatTrack :=
  [{ id := 1, prompt := "p", duration := "5s", date := "d",
     audioUrl := some 0, base64Audio := none }]

/-- A write oracle that always succeeds, for the C9 witness. -/
def alwaysOk (_l : List StoredFlatTrack) : WriteOutcome := WriteOutcome.ok

/-- Witness for C9: deleting the only track empties the list, the effect
does not write even though writing would succeed, and the next load brings
the deleted track back from the stale persisted value. -/
theorem stale_flat_history_check :
    deleteFromHistoryFlat demoMem 1 = [] ∧
      (persistHistory alwaysOk (some demoStored) (deleteFromHistoryFlat demoMem 1) =
          some demoStored ∧
        (loadStoredHistory (some demoStored) 0).map stripAudioUrl = demoStored) :=
  ⟨by decide, stale_flat_history alwaysOk demoStored demoMem 1 0 (by decide)⟩

/-- The in-memory `MusicTrack` of the IndexedDB App: `audioUrl` is the
transient playback handle (an object URL), modelled as a token. -/
structure AppTrack where
  id : Int
  prompt : String
  duration : String
  date : String
  audioUrl : Option Nat
  advancedSettings : Option AdvancedSettings
  isEdited : Option Bool
deriving DecidableEq, Repr

/-- The object-URL registry of the page: a fresh-token counter, every URL
ever created, and every `URL.revokeObjectURL` call made. -/
structure UrlEnv where
  nextUrl : Nat
  createdUrls : List Nat
  revokedUrls : List Nat
deriving DecidableEq, Repr

/-- `URL.createObjectURL`: hand out a fresh token and record it. -/
def createObjectURL (e : UrlEnv) : UrlEnv × Nat :=
  ({ nextUrl := e.nextUrl + 1, createdUrls := e.createdUrls ++ [e.nextUrl],
     revokedUrls := e.revokedUrls }, e.nextUrl)

/-- How many times the handle `u` has been revoked. -/
def revokeCount (e : UrlEnv) (u : Nat) : Nat := e.revokedUrls.count u

/-- The App state relevant to handle lifetime: the URL registry, the
IndexedDB store, the in-memory history and the selected track. -/
structure AppState where
  urls : UrlEnv
  dbStore : List DBTrack
  musicHistory : List AppTrack
  currentMusic : Option AppTrack
deriving DecidableEq, Repr

/-- The success path of `handleEditMusic` in the IndexedDB App, after the
refinement call returned `responseBytes`: create a new object URL, upsert
the refreshed record into IndexedDB under the same id, and replace the
track in `currentMusic` and `musicHistory` with `updatedMusic` carrying
the new handle.  The code contains no `URL.revokeObjectURL` call, so the
superseded handle is left registered and unrevoked. -/
def handleEditMusic (s : AppState) (responseBytes : List Nat) (newDate : String)
    (settings : AdvancedSettings) (now : Int) : AppState :=
  match s.currentMusic with
  | none => s
  | some current =>
    let created := createObjectURL s.urls
    let db1 := (addTrack s.dbStore
      { id := some current.id, prompt := current.prompt, duration := current.duration,
        date := newDate, audioBlob := responseBytes, advancedSettings := some settings,
        isEdited := some true } now).1
    let updatedMusic : AppTrack :=
      { id := current.id, prompt := current.prompt, duration := current.duration,
        date := newDate, audioUrl := some created.2, advancedSettings := some settings,
        isEdited := some true }
    { urls := created.1, dbStore := db1,
      musicHistory := s.musicHistory.map (fun m => if m.id = current.id then updatedMusic else m),
      currentMusic := some updatedMusic }

/-- `deleteFromHistory` in the IndexedDB App: delete the record, filter the
in-memory list, clear the selection if it pointed at the deleted id.  No
`URL.revokeObjectURL` call here either. -/
def deleteFromHistory (s : AppState) (i : Int) : AppState :=
  { urls := s.urls,
    dbStore := deleteTrack s.dbStore i,
    musicHistory := s.musicHistory.filter (fun m => decide (m.id ≠ i)),
    currentMusic :=
      match s.currentMusic with
      | some c => if c.id = i then none else some c
      | none => none }

/-- Claim C3 (code bug): neither replacing a track's handle on refinement
nor deleting the track revokes anything — the revocation log is unchanged
by both operations, so a superseded or deleted handle has revoke count 0,
never the required exactly-once; meanwhile `handleEditMusic` does hand the
replacement a fresh handle whenever a track is selected. -/
theorem handles_never_revoked (s : AppState) (responseBytes : List Nat)
    (newDate : String) (settings : AdvancedSettings) (now : Int) (i : Int) (u : Nat) :
    (handleEditMusic s responseBytes newDate settings now).urls.revokedUrls =
        s.urls.revokedUrls ∧
      (deleteFromHistory s i).urls.revokedUrls = s.urls.revokedUrls ∧
      revokeCount (handleEditMusic s responseBytes newDate settings now).urls u =
        revokeCount s.urls u ∧
      revokeCount (deleteFromHistory s i).urls u = revokeCount s.urls u ∧
      (handleEditMusic s responseBytes newDate settings now).currentMusic.map
          (fun t => t.audioUrl) =
        s.currentMusic.map (fun _ => some s.urls.nextUrl) := by
  have hedit : (handleEditMusic s responseBytes newDate settings now).urls.revokedUrls =
      s.urls.revokedUrls := by
    rw [handleEditMusic]
    rcases s.currentMusic with _ | c <;> rfl
  have hdel : (deleteFromHistory s i).urls.revokedUrls = s.urls.revokedUrls := rfl
  refine ⟨hedit, hdel, ?_, ?_, ?_⟩
  · rw [revokeCount, revokeCount, hedit]
  · rw [revokeCount, revokeCount, hdel]
  · rw [handleEditMusic]
    rcases hc : s.currentMusic with _ | c
    · show s.currentMusic.map (fun t => t.audioUrl) =
        (none : Option AppTrack).map (fun _ => some s.urls.nextUrl)
      rw [hc]
      rfl
    · rfl
